import Mathlib

/-!
Shallow embedding of the worker-pool task dispatcher of `cpp_utils`:
the single-queue variant `MessageQueue` (src/src/MessageQueue.cpp) and the
multi-queue variant `Poll<SIZE>` (src/include/utils/Poll.inl).

Tasks are abstract values of a type `α` (in the source,
`std::function<void()>`).  The shared mutex serialises all accesses, so the
pool's observable behaviour is a sequence of atomic operations on a state
made of the queue contents and the running flag; we embed each critical
section as a pure function on that state.  Condition-variable operations
performed during a call are recorded explicitly as a `List CvOp`, because
two of the claims are about which calls wake the workers.
-/

namespace CppUtils

/-- An operation on the shared condition variable `cv_`. -/
inductive CvOp
  | notify_all
  | wait
  deriving DecidableEq, Repr

/-- State of the single-queue variant: field `queue_` is the
`std::deque<std::function<void()>>` (front = next task to pop), field
`runing_` is the running flag (the source spells it `runing_`). -/
structure MessageQueue (α : Type) where
  queue_ : List α
  runing_ : Bool
  deriving DecidableEq, Repr

/-- Embedding of `MessageQueue::Dispatch` (MessageQueue.cpp:64-73): under the
lock, if the running flag is set, append the task at the back of the queue
and return `true`; otherwise return `false` and leave the state unchanged.
The third component records the condition-variable operations performed by
the call: the source performs none. -/
def MessageQueue.Dispatch (s : MessageQueue α) (func : α) :
    Bool × MessageQueue α × List CvOp :=
  if s.runing_ then
    (true, { s with queue_ := s.queue_ ++ [func] }, [])
  else
    (false, s, [])

/-- Embedding of `MessageQueue::~MessageQueue` (MessageQueue.cpp:56-62):
under the lock, clear the running flag; then join the worker.  The second
component records the condition-variable operations performed: the source
performs none (in particular, no notify before the join). -/
def MessageQueue.destruct (s : MessageQueue α) : MessageQueue α × List CvOp :=
  ({ s with runing_ := false }, [])

/-- Outcome of one iteration of a worker loop body (the critical section of
the `while (true)` loop): pop the front task (to be executed with the lock
released), or block on the condition variable, or break out of the loop. -/
inductive WorkerAction (α : Type)
  | pop (elem : α)
  | wait
  | exit
  deriving DecidableEq, Repr

/-- Embedding of the loop body of the `MessageQueue` worker thread
(MessageQueue.cpp:37-51): if the queue is non-empty, pop the front element;
else if the running flag is set, wait on the condition variable; else break. -/
def MessageQueue.workerStep (s : MessageQueue α) : WorkerAction α × MessageQueue α :=
  match s.queue_ with
  | elem :: rest => (WorkerAction.pop elem, { s with queue_ := rest })
  | [] =>
    if s.runing_ then (WorkerAction.wait, s) else (WorkerAction.exit, s)

/-- State of the multi-queue variant `Poll<SIZE>`: field `queue_` is the
`std::array<std::deque<std::function<void()>>, SIZE>` (one FIFO deque per
worker, `SIZE = queue_.length`), field `runing_` is the running flag. -/
structure Poll (α : Type) where
  queue_ : List (List α)
  runing_ : Bool
  deriving DecidableEq, Repr

/-- Embedding of the selection loop of `Poll<SIZE>::Dispatch`
(Poll.inl:79-87): `queue` is the index of the current best queue,
`min_size` its recorded length, `idx` the index of the head of the remaining
list; a strictly smaller length updates the best, so ties keep the earlier
index. -/
def Poll.selectLoop (queue : Nat) (min_size : Nat) (idx : Nat) :
    List (List α) → Nat
  | [] => queue
  | q :: qs =>
    if q.length < min_size then Poll.selectLoop idx q.length (idx + 1) qs
    else Poll.selectLoop queue min_size (idx + 1) qs

/-- Embedding of the queue selection of `Poll<SIZE>::Dispatch`
(Poll.inl:79-87): start from `queue_.begin()` and scan the rest.  When the
array is empty (`SIZE = 0`), the source dereferences `queue_.begin() ==
queue_.end()`, which is undefined; this is modelled as `none`. -/
def Poll.selectQueue : List (List α) → Option Nat
  | [] => none
  | q :: qs => some (Poll.selectLoop 0 q.length 1 qs)

/-- Embedding of `Poll<SIZE>::Dispatch` (Poll.inl:74-94): under the lock, if
the running flag is set, select the queue of minimum length (first wins on
ties), append the task to it, call `cv_.notify_all()` and return `true`;
otherwise return `false`.  `none` models the undefined dereference when
`SIZE = 0` and the running flag is set. -/
def Poll.Dispatch (s : Poll α) (func : α) :
    Option (Bool × Poll α × List CvOp) :=
  if s.runing_ then
    match Poll.selectQueue s.queue_ with
    | none => none
    | some i =>
      some (true,
        { s with queue_ := s.queue_.set i (s.queue_.getD i [] ++ [func]) },
        [CvOp.notify_all])
  else
    some (false, s, [])

/-- Embedding of `Poll<SIZE>::~Poll` (Poll.inl:62-72): under the lock, clear
the running flag and call `cv_.notify_all()`; then join every worker. -/
def Poll.destruct (s : Poll α) : Poll α × List CvOp :=
  ({ s with runing_ := false }, [CvOp.notify_all])

/-- Embedding of the loop body of worker `i` of `Poll<SIZE>` (Poll.inl:41-55):
if `queue_[i]` is non-empty, pop its front element; else if the running flag
is set, wait on the condition variable; else break. -/
def Poll.workerStep (s : Poll α) (i : Nat) : WorkerAction α × Poll α :=
  match s.queue_.getD i [] with
  | elem :: rest => (WorkerAction.pop elem, { s with queue_ := s.queue_.set i rest })
  | [] =>
    if s.runing_ then (WorkerAction.wait, s) else (WorkerAction.exit, s)

/-- Embedding of the task invocation done by the `MessageQueue` worker
(MessageQueue.cpp:40-45): each popped `elem` is invoked bare (`elem();`)
with no try/catch around it, so a fault raised by a task aborts the loop
body and propagates.  A task is modelled by the result of invoking it,
`Except ε Unit`; executing the backlog chains those results with `bind`,
which is exactly "no surrounding handler". -/
def MessageQueue.execLoop {ε : Type} : List (Except ε Unit) → Except ε Unit
  | [] => Except.ok ()
  | elem :: rest => elem.bind fun _ => MessageQueue.execLoop rest

/-- Embedding of the task invocation done by a `Poll<SIZE>` worker
(Poll.inl:44-49): identical bare invocation `elem();` with no handler. -/
def Poll.execLoop {ε : Type} : List (Except ε Unit) → Except ε Unit
  | [] => Except.ok ()
  | elem :: rest => elem.bind fun _ => Poll.execLoop rest

/-- System state of the single-queue variant plus ghost histories. -/
structure MQSys (α : Type) where
  st : MessageQueue α
  accepted : List α
  executed : List α
  deriving DecidableEq, Repr

/-- One atomic step of the single-queue system: a `Dispatch` call (accepted
or rejected), a worker loop iteration that pops the front task, a worker
loop iteration that blocks on the condition variable, or the destructor's
critical section that clears the running flag. -/
inductive MQStep (α : Type) : MQSys α → MQSys α → Prop
  | dispatch_ok (s : MQSys α) (t : α) (st' : MessageQueue α) (ops : List CvOp) :
      MessageQueue.Dispatch s.st t = (true, st', ops) →
      MQStep α s ⟨st', s.accepted ++ [t], s.executed⟩
  | dispatch_fail (s : MQSys α) (t : α) (st' : MessageQueue α) (ops : List CvOp) :
      MessageQueue.Dispatch s.st t = (false, st', ops) →
      MQStep α s ⟨st', s.accepted, s.executed⟩
  | pop (s : MQSys α) (t : α) (st' : MessageQueue α) :
      MessageQueue.workerStep s.st = (WorkerAction.pop t, st') →
      MQStep α s ⟨st', s.accepted, s.executed ++ [t]⟩
  | wait (s : MQSys α) (st' : MessageQueue α) :
      MessageQueue.workerStep s.st = (WorkerAction.wait, st') →
      MQStep α s ⟨st', s.accepted, s.executed⟩
  | shutdown (s : MQSys α) :
      MQStep α s ⟨(MessageQueue.destruct s.st).1, s.accepted, s.executed⟩

/-- Initial state of the single-queue system: empty queue, running flag set
(MessageQueue.h initialises `runing_` to `true`), empty histories. -/
def MQSys.init (α : Type) : MQSys α := ⟨⟨[], true⟩, [], []⟩

/-- The FIFO invariant of the single-queue system: the acceptance history is
the execution history followed by the current queue content. -/
def MQInv {α : Type} (s : MQSys α) : Prop :=
  s.accepted = s.executed ++ s.st.queue_

/-- The tasks of a history `l` that belong to queue `i` (multi-queue
histories record the target queue index alongside each task). -/
def atQueue {α : Type} (i : Nat) (l : List (Nat × α)) : List α :=
  (l.filter fun x => x.1 == i).map Prod.snd

/-- System state of the multi-queue variant plus ghost histories. -/
structure PollSys (α : Type) where
  st : Poll α
  accepted : List (Nat × α)
  executed : List (Nat × α)
  deriving DecidableEq, Repr

/-- One atomic step of the multi-queue system: a `Dispatch` call (recording
the selected queue index on acceptance), a loop iteration of worker `i` that
pops the front of queue `i`, a loop iteration that blocks, or the
destructor's critical section. -/
inductive PollStep (α : Type) : PollSys α → PollSys α → Prop
  | dispatch_ok (s : PollSys α) (t : α) (i : Nat) (st' : Poll α)
      (ops : List CvOp) :
      Poll.selectQueue s.st.queue_ = some i →
      Poll.Dispatch s.st t = some (true, st', ops) →
      PollStep α s ⟨st', s.accepted ++ [(i, t)], s.executed⟩
  | dispatch_fail (s : PollSys α) (t : α) (st' : Poll α) (ops : List CvOp) :
      Poll.Dispatch s.st t = some (false, st', ops) →
      PollStep α s ⟨st', s.accepted, s.executed⟩
  | pop (s : PollSys α) (i : Nat) (t : α) (st' : Poll α) :
      Poll.workerStep s.st i = (WorkerAction.pop t, st') →
      PollStep α s ⟨st', s.accepted, s.executed ++ [(i, t)]⟩
  | wait (s : PollSys α) (i : Nat) (st' : Poll α) :
      Poll.workerStep s.st i = (WorkerAction.wait, st') →
      PollStep α s ⟨st', s.accepted, s.executed⟩
  | shutdown (s : PollSys α) :
      PollStep α s ⟨(Poll.destruct s.st).1, s.accepted, s.executed⟩

/-- Initial state of a multi-queue system of size `K`: `K` empty queues,
running flag set (Poll.h initialises `runing_` to `true`), empty
histories. -/
def PollSys.init (α : Type) (K : Nat) : PollSys α :=
  ⟨⟨List.replicate K [], true⟩, [], []⟩

/-- The per-queue FIFO invariant of the multi-queue system. -/
def PollInv {α : Type} (s : PollSys α) : Prop :=
  ∀ i, atQueue i s.accepted = atQueue i s.executed ++ s.st.queue_.getD i []

/-- The observable trace of a sequence of back-to-back `Dispatch` calls with
no interleaved pops: the list of selected queue indices, with the final pool
state; `none` as soon as one call is rejected or undefined. -/
def Poll.dispatchTrace {α : Type} : Poll α → List α → Option (List Nat × Poll α)
  | s, [] => some ([], s)
  | s, t :: ts =>
    match Poll.selectQueue s.queue_, Poll.Dispatch s t with
    | some i, some (true, s', _) =>
      (Poll.dispatchTrace s' ts).map fun r => (i :: r.1, r.2)
    | _, _ => none

/-! ### Lemmas and verified properties -/

lemma getD_set_self {β : Type} (l : List β) (i : Nat) (x d : β)
    (h : i < l.length) : (l.set i x).getD i d = x := by
  induction l generalizing i with
  | nil => simp at h
  | cons a l ih =>
    cases i with
    | zero => simp [List.getD]
    | succ n =>
      simp only [List.set, List.getD_cons_succ]
      exact ih n (by simpa using h)

lemma getD_set_of_ne {β : Type} (l : List β) (i j : Nat) (x d : β)
    (h : i ≠ j) : (l.set i x).getD j d = l.getD j d := by
  induction l generalizing i j with
  | nil => simp
  | cons a l ih =>
    cases i with
    | zero =>
      cases j with
      | zero => exact absurd rfl h
      | succ m => simp [List.getD]
    | succ n =>
      cases j with
      | zero => simp [List.getD]
      | succ m =>
        simp only [List.set, List.getD_cons_succ]
        exact ih n m (fun hnm => h (by rw [hnm]))

lemma selectLoop_lt {α : Type} (qs : List (List α)) :
    ∀ queue m idx, queue < idx →
      Poll.selectLoop queue m idx qs < idx + qs.length := by
  induction qs with
  | nil => intro queue m idx h; simpa [Poll.selectLoop] using h
  | cons q qs ih =>
    intro queue m idx h
    simp only [Poll.selectLoop]
    by_cases hlt : q.length < m
    · simp only [hlt, if_true]
      have := ih idx q.length (idx + 1) (Nat.lt_succ_self idx)
      simpa [Nat.add_assoc, Nat.add_comm, Nat.add_left_comm] using this
    · simp only [hlt, if_false]
      have := ih queue m (idx + 1) (Nat.lt_succ_of_lt h)
      simpa [Nat.add_assoc, Nat.add_comm, Nat.add_left_comm] using this

lemma selectQueue_lt {α : Type} {L : List (List α)} {i : Nat}
    (h : Poll.selectQueue L = some i) : i < L.length := by
  cases L with
  | nil => simp [Poll.selectQueue] at h
  | cons q qs =>
    simp only [Poll.selectQueue, Option.some.injEq] at h
    subst h
    have := selectLoop_lt qs 0 q.length 1 (Nat.zero_lt_one)
    simpa [Nat.add_comm] using this

lemma selectQueue_isSome {α : Type} {L : List (List α)} (h : L ≠ []) :
    ∃ i, Poll.selectQueue L = some i := by
  cases L with
  | nil => exact absurd rfl h
  | cons q qs => exact ⟨_, rfl⟩

lemma Poll.workerStep_cons {α : Type} {s : Poll α} {i : Nat} {t : α}
    {rest : List α} (h : s.queue_.getD i [] = t :: rest) :
    Poll.workerStep s i =
      (WorkerAction.pop t, { s with queue_ := s.queue_.set i rest }) := by
  unfold Poll.workerStep
  rw [h]

lemma Poll.workerStep_nil {α : Type} {s : Poll α} {i : Nat}
    (h : s.queue_.getD i [] = []) :
    Poll.workerStep s i =
      if s.runing_ then (WorkerAction.wait, s) else (WorkerAction.exit, s) := by
  unfold Poll.workerStep
  rw [h]

/-- C1: Dispatch fails exactly when the running flag is clear; on failure the
state (hence every queue) is untouched, and on success the task is appended
at the back of exactly one queue.  Single-queue variant: MessageQueue.cpp
64-73.  Multi-queue variant (for a non-empty queue array, see C9):
Poll.inl 74-94. -/
theorem dispatch_reject_iff {α : Type} :
    (∀ (s : MessageQueue α) (t : α),
      ((MessageQueue.Dispatch s t).1 = false ↔ s.runing_ = false) ∧
      (s.runing_ = false → (MessageQueue.Dispatch s t).2.1 = s) ∧
      (s.runing_ = true →
        (MessageQueue.Dispatch s t).2.1.queue_ = s.queue_ ++ [t])) ∧
    (∀ (s : Poll α) (t : α), s.queue_ ≠ [] →
      ∃ b s' ops, Poll.Dispatch s t = some (b, s', ops) ∧
        (b = false ↔ s.runing_ = false) ∧
        (b = false → s' = s) ∧
        (b = true → ∃ i, i < s.queue_.length ∧
          s'.queue_ = s.queue_.set i (s.queue_.getD i [] ++ [t]) ∧
          s'.queue_.getD i [] = s.queue_.getD i [] ++ [t] ∧
          ∀ j, j ≠ i → s'.queue_.getD j [] = s.queue_.getD j [])) := by
  constructor
  · intro s t
    refine ⟨?_, ?_, ?_⟩
    · cases hr : s.runing_ <;> simp [MessageQueue.Dispatch, hr]
    · intro hr; simp [MessageQueue.Dispatch, hr]
    · intro hr; simp [MessageQueue.Dispatch, hr]
  · intro s t hne
    cases hr : s.runing_ with
    | false =>
      exact ⟨false, s, [], by simp [Poll.Dispatch, hr], by simp, fun _ => rfl,
        by simp⟩
    | true =>
      obtain ⟨i, hi⟩ := selectQueue_isSome hne
      refine ⟨true, { s with queue_ := s.queue_.set i (s.queue_.getD i [] ++ [t]) },
        [CvOp.notify_all], by simp only [Poll.Dispatch, hr, hi, if_true],
        by simp, by simp, ?_⟩
      intro _
      refine ⟨i, selectQueue_lt hi, rfl, ?_, ?_⟩
      · exact getD_set_self _ _ _ _ (selectQueue_lt hi)
      · intro j hj
        exact getD_set_of_ne _ _ _ _ _ (fun h => hj h.symm)

/-- Witness for C1 at concrete states: a stopped single-queue pool rejects,
a running one appends; a running two-queue pool accepts with the stated
queue update. -/
theorem dispatch_reject_iff_witness :
    (((MessageQueue.Dispatch (⟨[], false⟩ : MessageQueue Nat) 7).1 = false ↔
        (⟨[], false⟩ : MessageQueue Nat).runing_ = false) ∧
     (MessageQueue.Dispatch (⟨[], true⟩ : MessageQueue Nat) 7).2.1.queue_ =
        [] ++ [7]) ∧
    ((⟨[[0]], true⟩ : Poll Nat).queue_ ≠ [] ∧
     ∃ b s' ops, Poll.Dispatch (⟨[[0]], true⟩ : Poll Nat) 7 = some (b, s', ops) ∧
       (b = false ↔ (⟨[[0]], true⟩ : Poll Nat).runing_ = false) ∧
       (b = false → s' = (⟨[[0]], true⟩ : Poll Nat)) ∧
       (b = true → ∃ i, i < (⟨[[0]], true⟩ : Poll Nat).queue_.length ∧
         s'.queue_ = (⟨[[0]], true⟩ : Poll Nat).queue_.set i
           ((⟨[[0]], true⟩ : Poll Nat).queue_.getD i [] ++ [7]) ∧
         s'.queue_.getD i [] =
           (⟨[[0]], true⟩ : Poll Nat).queue_.getD i [] ++ [7] ∧
         ∀ j, j ≠ i →
           s'.queue_.getD j [] = (⟨[[0]], true⟩ : Poll Nat).queue_.getD j [])) :=
  ⟨⟨(dispatch_reject_iff.1 ⟨[], false⟩ 7).1,
    (dispatch_reject_iff.1 ⟨[], true⟩ 7).2.2 rfl⟩,
   by decide,
   dispatch_reject_iff.2 ⟨[[0]], true⟩ 7 (by decide)⟩

/-- C4: the worker loop body exits only when its own queue is empty and the
running flag is clear; whenever its queue is non-empty it pops the front task
regardless of the flag, so a shutdown signal never discards queued work.
Single-queue variant: MessageQueue.cpp 37-51; multi-queue variant:
Poll.inl 41-55. -/
theorem drain_before_exit {α : Type} :
    (∀ (s : MessageQueue α),
      ((MessageQueue.workerStep s).1 = WorkerAction.exit ↔
        s.queue_ = [] ∧ s.runing_ = false) ∧
      (∀ t rest, s.queue_ = t :: rest →
        MessageQueue.workerStep s =
          (WorkerAction.pop t, { s with queue_ := rest }))) ∧
    (∀ (s : Poll α) (i : Nat),
      ((Poll.workerStep s i).1 = WorkerAction.exit ↔
        s.queue_.getD i [] = [] ∧ s.runing_ = false) ∧
      (∀ t rest, s.queue_.getD i [] = t :: rest →
        Poll.workerStep s i =
          (WorkerAction.pop t, { s with queue_ := s.queue_.set i rest }))) := by
  constructor
  · intro s
    obtain ⟨q, r⟩ := s
    constructor
    · cases q <;> cases r <;> simp [MessageQueue.workerStep]
    · intro t rest hq
      subst hq
      rfl
  · intro s i
    constructor
    · cases hq : s.queue_.getD i [] with
      | nil =>
        rw [Poll.workerStep_nil hq]
        cases hr : s.runing_ <;> simp [hq]
      | cons t rest =>
        rw [Poll.workerStep_cons hq]
        simp [hq]
    · intro t rest hq
      exact Poll.workerStep_cons hq

/-- Witness for C4 at concrete states: a drained stopped worker exits, and a
worker with queue `[3, 4]` pops `3` first, in both variants. -/
theorem drain_before_exit_witness :
    ((MessageQueue.workerStep (⟨[], false⟩ : MessageQueue Nat)).1 =
        WorkerAction.exit ↔
      (⟨[], false⟩ : MessageQueue Nat).queue_ = [] ∧
        (⟨[], false⟩ : MessageQueue Nat).runing_ = false) ∧
    MessageQueue.workerStep (⟨[3, 4], false⟩ : MessageQueue Nat) =
      (WorkerAction.pop 3, ⟨[4], false⟩) ∧
    Poll.workerStep (⟨[[], [3, 4]], true⟩ : Poll Nat) 1 =
      (WorkerAction.pop 3, ⟨[[], [4]], true⟩) :=
  ⟨(drain_before_exit.1 ⟨[], false⟩).1,
   (drain_before_exit.1 ⟨[3, 4], false⟩).2 3 [4] rfl,
   (drain_before_exit.2 ⟨[[], [3, 4]], true⟩ 1).2 3 [4] rfl⟩

/-- C9: the success branch of `Poll<SIZE>::Dispatch` dereferences
`queue_.begin()`, which is undefined exactly when `SIZE = 0` (modelled as
`none`); for every non-empty queue array the minimum-length scan yields an
in-bounds index, so the out-of-range branch is unreachable for `SIZE >= 1`. -/
theorem select_in_bounds :
    (∀ (α : Type), Poll.selectQueue ([] : List (List α)) = none) ∧
    (∀ (α : Type) (queues : List (List α)), queues ≠ [] →
      ∃ i, Poll.selectQueue queues = some i ∧ i < queues.length) ∧
    (∀ (α : Type) (s : Poll α) (t : α), s.runing_ = true → s.queue_ = [] →
      Poll.Dispatch s t = none) := by
  refine ⟨fun _ => rfl, ?_, ?_⟩
  · intro α queues hne
    obtain ⟨i, hi⟩ := selectQueue_isSome hne
    exact ⟨i, hi, selectQueue_lt hi⟩
  · intro α s t hr hq
    simp [Poll.Dispatch, hr, hq, Poll.selectQueue]

/-- Witness for C9: the scan over the two-queue array `[[0], []]` yields an
in-bounds index, and a running pool with `SIZE = 0` has an undefined
Dispatch. -/
theorem select_in_bounds_witness :
    (([[0], []] : List (List Nat)) ≠ [] ∧
      ∃ i, Poll.selectQueue ([[0], []] : List (List Nat)) = some i ∧ i < 2) ∧
    Poll.Dispatch (⟨[], true⟩ : Poll Nat) 7 = none :=
  ⟨⟨by decide, select_in_bounds.2.1 Nat [[0], []] (by decide)⟩,
   select_in_bounds.2.2 Nat ⟨[], true⟩ 7 rfl rfl⟩

/-- C7 counter-evidence: a successful `MessageQueue::Dispatch` performs no
condition-variable operation at all (MessageQueue.cpp 64-73 contains no
notify call), while the multi-queue variant does call `cv_.notify_all()`
(Poll.inl 89).  The claim that both variants wake the workers on every
successful Dispatch therefore fails for the single-queue variant. -/
theorem mq_dispatch_no_wake :
    MessageQueue.Dispatch (⟨[], true⟩ : MessageQueue Nat) 0 =
      (true, ⟨[0], true⟩, ([] : List CvOp)) ∧
    Poll.Dispatch (⟨[[]], true⟩ : Poll Nat) 0 =
      some (true, ⟨[[0]], true⟩, [CvOp.notify_all]) :=
  ⟨rfl, rfl⟩

/-- C8 counter-evidence: `MessageQueue::~MessageQueue` clears the running
flag but performs no condition-variable notification before joining
(MessageQueue.cpp 56-62 contains no notify call), while `Poll<SIZE>::~Poll`
does call `cv_.notify_all()` (Poll.inl 67).  The claimed shutdown sequence
(set flag, wake all workers, join) therefore fails for the single-queue
variant: an idle worker blocked in `cv_.wait` is never woken. -/
theorem mq_shutdown_no_wake :
    MessageQueue.destruct (⟨[], true⟩ : MessageQueue Nat) =
      (⟨[], false⟩, ([] : List CvOp)) ∧
    Poll.destruct (⟨[[], []], true⟩ : Poll Nat) =
      (⟨[[], []], false⟩, [CvOp.notify_all]) :=
  ⟨rfl, rfl⟩

/-- C10: in both variants a popped task is invoked with no surrounding fault
handler: if every task before position `k` completes normally and the task
at `k` raises fault `e`, the worker's execution of the backlog results in
`e` propagating out of the loop, not in `e` being caught or swallowed. -/
theorem fault_propagates {ε : Type} :
    (∀ (pre rest : List (Except ε Unit)) (e : ε),
      (∀ t ∈ pre, t = Except.ok ()) →
      MessageQueue.execLoop (pre ++ Except.error e :: rest) = Except.error e) ∧
    (∀ (pre rest : List (Except ε Unit)) (e : ε),
      (∀ t ∈ pre, t = Except.ok ()) →
      Poll.execLoop (pre ++ Except.error e :: rest) = Except.error e) := by
  constructor
  · intro pre rest e hpre
    induction pre with
    | nil => rfl
    | cons t pre ih =>
      have ht : t = Except.ok () := hpre t (by simp)
      subst ht
      simpa [MessageQueue.execLoop, Except.bind] using
        ih (fun u hu => hpre u (by simp [hu]))
  · intro pre rest e hpre
    induction pre with
    | nil => rfl
    | cons t pre ih =>
      have ht : t = Except.ok () := hpre t (by simp)
      subst ht
      simpa [Poll.execLoop, Except.bind] using
        ih (fun u hu => hpre u (by simp [hu]))

/-- Witness for C10: one normally-completing task followed by a faulting
task; the fault value `3` escapes the loop in both variants. -/
theorem fault_propagates_witness :
    (∀ t ∈ [Except.ok ()], t = (Except.ok () : Except Nat Unit)) ∧
    MessageQueue.execLoop
      ([Except.ok ()] ++ Except.error 3 :: [Except.ok ()]) = Except.error 3 ∧
    Poll.execLoop
      ([Except.ok ()] ++ Except.error 3 :: [Except.ok ()]) = Except.error 3 :=
  ⟨by simp,
   fault_propagates.1 [Except.ok ()] [Except.ok ()] 3 (by simp),
   fault_propagates.2 [Except.ok ()] [Except.ok ()] 3 (by simp)⟩

lemma mq_step_inv {α : Type} {s s' : MQSys α} (h : MQStep α s s')
    (hinv : MQInv s) : MQInv s' := by
  cases h with
  | dispatch_ok t st' ops hd =>
    cases hr : s.st.runing_ with
    | false => simp [MessageQueue.Dispatch, hr] at hd
    | true =>
      simp only [MessageQueue.Dispatch, hr, if_true, Prod.mk.injEq, true_and] at hd
      simp only [MQInv] at hinv ⊢
      rw [← hd.1, hinv]
      simp
  | dispatch_fail t st' ops hd =>
    cases hr : s.st.runing_ with
    | true => simp [MessageQueue.Dispatch, hr] at hd
    | false =>
      simp [MessageQueue.Dispatch, hr] at hd
      simp only [MQInv] at hinv ⊢
      rw [← hd.1]
      exact hinv
  | pop t st' hp =>
    cases hq : s.st.queue_ with
    | nil =>
      rw [show MessageQueue.workerStep s.st =
          (if s.st.runing_ then (WorkerAction.wait, s.st)
            else (WorkerAction.exit, s.st)) by
        unfold MessageQueue.workerStep; rw [hq]] at hp
      cases hr : s.st.runing_ <;> simp [hr] at hp
    | cons u rest =>
      rw [show MessageQueue.workerStep s.st =
          (WorkerAction.pop u, { s.st with queue_ := rest }) by
        unfold MessageQueue.workerStep; rw [hq]] at hp
      obtain ⟨hu, hst⟩ := Prod.mk.injEq .. ▸ hp
      cases hu
      simp only [MQInv] at hinv ⊢
      rw [← hst, hinv, hq]
      simp
  | wait st' hw =>
    cases hq : s.st.queue_ with
    | nil =>
      rw [show MessageQueue.workerStep s.st =
          (if s.st.runing_ then (WorkerAction.wait, s.st)
            else (WorkerAction.exit, s.st)) by
        unfold MessageQueue.workerStep; rw [hq]] at hw
      cases hr : s.st.runing_ <;> simp [hr] at hw
      · simp only [MQInv] at hinv ⊢
        rw [← hw]
        exact hinv
    | cons u rest =>
      rw [show MessageQueue.workerStep s.st =
          (WorkerAction.pop u, { s.st with queue_ := rest }) by
        unfold MessageQueue.workerStep; rw [hq]] at hw
      simp at hw
  | shutdown =>
    simp only [MQInv, MessageQueue.destruct] at hinv ⊢
    exact hinv

lemma mq_reachable_inv {α : Type} {s : MQSys α}
    (h : Relation.ReflTransGen (MQStep α) (MQSys.init α) s) : MQInv s := by
  induction h with
  | refl => rfl
  | tail _ hstep ih => exact mq_step_inv hstep ih

lemma atQueue_append {α : Type} (i : Nat) (l l' : List (Nat × α)) :
    atQueue i (l ++ l') = atQueue i l ++ atQueue i l' := by
  simp [atQueue]

lemma atQueue_singleton {α : Type} (i j : Nat) (t : α) :
    atQueue i [(j, t)] = if j = i then [t] else [] := by
  by_cases h : j = i <;> simp [atQueue, h]

lemma getD_length_le {β : Type} (l : List β) (i : Nat) (d : β)
    (h : l.length ≤ i) : l.getD i d = d := by
  induction l generalizing i with
  | nil => simp [List.getD]
  | cons a l ih =>
    cases i with
    | zero => simp at h
    | succ n => exact ih n (by simpa using h)

lemma lt_length_of_getD_cons {β : Type} {l : List (List β)} {i : Nat}
    {t : β} {rest : List β} (h : l.getD i [] = t :: rest) : i < l.length := by
  by_contra hge
  rw [getD_length_le l i [] (Nat.le_of_not_lt hge)] at h
  exact List.noConfusion h

lemma poll_step_inv {α : Type} {s s' : PollSys α} (h : PollStep α s s')
    (hinv : PollInv s) : PollInv s' := by
  cases h with
  | dispatch_ok t i st' ops hsel hd =>
    cases hr : s.st.runing_ with
    | false => simp [Poll.Dispatch, hr] at hd
    | true =>
      simp only [Poll.Dispatch, hr, hsel, if_true, Option.some.injEq,
        Prod.mk.injEq, true_and] at hd
      have hib : i < s.st.queue_.length := selectQueue_lt hsel
      intro k
      simp only [atQueue_append, atQueue_singleton]
      rw [← hd.1]
      by_cases hk : i = k
      · subst hk
        simp only [if_true]
        rw [getD_set_self _ _ _ _ hib, hinv i, List.append_assoc]
      · simp only [hk, if_false, List.append_nil]
        rw [getD_set_of_ne _ _ _ _ _ hk]
        exact hinv k
  | dispatch_fail t st' ops hd =>
    cases hr : s.st.runing_ with
    | true =>
      rcases hs : Poll.selectQueue s.st.queue_ with _ | i <;>
        simp [Poll.Dispatch, hr, hs] at hd
    | false =>
      simp [Poll.Dispatch, hr] at hd
      intro k
      rw [← hd.1]
      exact hinv k
  | pop i t st' hp =>
    cases hq : s.st.queue_.getD i [] with
    | nil =>
      rw [Poll.workerStep_nil hq] at hp
      cases hr : s.st.runing_ <;> simp [hr] at hp
    | cons u rest =>
      rw [Poll.workerStep_cons hq] at hp
      have hu : u = t := by
        have := congrArg Prod.fst hp
        simpa using this
      have hst : st' = { s.st with queue_ := s.st.queue_.set i rest } := by
        have := congrArg Prod.snd hp
        exact this.symm
      subst hu
      have hib : i < s.st.queue_.length := lt_length_of_getD_cons hq
      intro k
      simp only [atQueue_append, atQueue_singleton, hst]
      by_cases hk : i = k
      · subst hk
        simp only [if_true]
        rw [getD_set_self _ _ _ _ hib, hinv i, hq, List.append_assoc]
        rfl
      · simp only [hk, if_false, List.append_nil]
        rw [getD_set_of_ne _ _ _ _ _ hk]
        exact hinv k
  | wait i st' hw =>
    cases hq : s.st.queue_.getD i [] with
    | nil =>
      rw [Poll.workerStep_nil hq] at hw
      cases hr : s.st.runing_ <;> simp [hr] at hw
      · intro k
        rw [← hw]
        exact hinv k
    | cons u rest =>
      rw [Poll.workerStep_cons hq] at hw
      simp at hw
  | shutdown =>
    intro k
    simp only [Poll.destruct]
    exact hinv k

lemma getD_replicate_nil {α : Type} (K i : Nat) :
    (List.replicate K ([] : List α)).getD i [] = [] := by
  induction K generalizing i with
  | zero => simp [List.getD]
  | succ n ih =>
    cases i with
    | zero => rfl
    | succ m => exact ih m

lemma poll_reachable_inv {α : Type} {K : Nat} {s : PollSys α}
    (h : Relation.ReflTransGen (PollStep α) (PollSys.init α K) s) :
    PollInv s := by
  induction h with
  | refl =>
    intro i
    simp [PollSys.init, atQueue, getD_replicate_nil]
  | tail _ hstep ih => exact poll_step_inv hstep ih

/-- C2: per-queue FIFO order is preserved end-to-end, in both variants: in
every reachable state the sequence of tasks accepted for a queue equals the
sequence of tasks already popped from it followed by its current content,
so tasks are popped (and hence executed) in dispatch order. -/
theorem per_queue_fifo {α : Type} :
    (∀ (s : MQSys α), Relation.ReflTransGen (MQStep α) (MQSys.init α) s →
      s.accepted = s.executed ++ s.st.queue_) ∧
    (∀ (K : Nat) (s : PollSys α),
      Relation.ReflTransGen (PollStep α) (PollSys.init α K) s →
      ∀ i, atQueue i s.accepted =
        atQueue i s.executed ++ s.st.queue_.getD i []) :=
  ⟨fun _ h => mq_reachable_inv h, fun _ _ h => poll_reachable_inv h⟩

/-- Witness for C2: after dispatching `5, 6` and popping once in the
single-queue system and dispatching `7` and popping it in a one-queue
multi-queue system, the histories satisfy the FIFO equation. -/
theorem per_queue_fifo_witness :
    (Relation.ReflTransGen (MQStep Nat) (MQSys.init Nat)
        ⟨⟨[6], true⟩, [5, 6], [5]⟩ ∧
      ([5, 6] : List Nat) = [5] ++ [6]) ∧
    (Relation.ReflTransGen (PollStep Nat) (PollSys.init Nat 1)
        ⟨⟨[[]], true⟩, [(0, 7)], [(0, 7)]⟩ ∧
      atQueue 0 ([(0, 7)] : List (Nat × Nat)) =
        atQueue 0 [(0, 7)] ++ ([[]] : List (List Nat)).getD 0 []) := by
  have h1 : MQStep Nat (MQSys.init Nat) ⟨⟨[5], true⟩, [5], []⟩ :=
    MQStep.dispatch_ok _ 5 ⟨[5], true⟩ [] rfl
  have h2 : MQStep Nat ⟨⟨[5], true⟩, [5], []⟩ ⟨⟨[5, 6], true⟩, [5, 6], []⟩ :=
    MQStep.dispatch_ok _ 6 ⟨[5, 6], true⟩ [] rfl
  have h3 : MQStep Nat ⟨⟨[5, 6], true⟩, [5, 6], []⟩ ⟨⟨[6], true⟩, [5, 6], [5]⟩ :=
    MQStep.pop _ 5 ⟨[6], true⟩ rfl
  have hmq : Relation.ReflTransGen (MQStep Nat) (MQSys.init Nat)
      ⟨⟨[6], true⟩, [5, 6], [5]⟩ :=
    Relation.ReflTransGen.tail
      (Relation.ReflTransGen.tail (Relation.ReflTransGen.single h1) h2) h3
  have p1 : PollStep Nat (PollSys.init Nat 1) ⟨⟨[[7]], true⟩, [(0, 7)], []⟩ :=
    PollStep.dispatch_ok _ 7 0 ⟨[[7]], true⟩ [CvOp.notify_all] rfl rfl
  have p2 : PollStep Nat ⟨⟨[[7]], true⟩, [(0, 7)], []⟩
      ⟨⟨[[]], true⟩, [(0, 7)], [(0, 7)]⟩ :=
    PollStep.pop _ 0 7 ⟨[[]], true⟩ rfl
  have hpoll : Relation.ReflTransGen (PollStep Nat) (PollSys.init Nat 1)
      ⟨⟨[[]], true⟩, [(0, 7)], [(0, 7)]⟩ :=
    Relation.ReflTransGen.tail (Relation.ReflTransGen.single p1) p2
  exact ⟨⟨hmq, per_queue_fifo.1 _ hmq⟩,
    ⟨hpoll, per_queue_fifo.2 1 _ hpoll 0⟩⟩

/-- C3: exactly-once execution, in both variants: in every reachable state
no task has been popped more often than it was accepted, and once the queues
are drained the execution history equals the acceptance history, so every
task accepted before shutdown executes exactly once and no popped task is
ever re-queued or re-executed. -/
theorem exactly_once {α : Type} [DecidableEq α] :
    (∀ (s : MQSys α), Relation.ReflTransGen (MQStep α) (MQSys.init α) s →
      (∀ t, s.executed.count t ≤ s.accepted.count t) ∧
      (s.st.queue_ = [] → s.executed = s.accepted)) ∧
    (∀ (K : Nat) (s : PollSys α),
      Relation.ReflTransGen (PollStep α) (PollSys.init α K) s →
      (∀ i t, (atQueue i s.executed).count t ≤ (atQueue i s.accepted).count t) ∧
      ((∀ i, s.st.queue_.getD i [] = []) →
        ∀ i, atQueue i s.executed = atQueue i s.accepted)) := by
  constructor
  · intro s h
    have hinv := mq_reachable_inv h
    constructor
    · intro t
      rw [hinv, List.count_append]
      exact Nat.le_add_right _ _
    · intro hq
      rw [hinv, hq, List.append_nil]
  · intro K s h
    have hinv := poll_reachable_inv h
    constructor
    · intro i t
      rw [hinv i, List.count_append]
      exact Nat.le_add_right _ _
    · intro hq i
      rw [hinv i, hq i, List.append_nil]

/-- Witness for C3: in the single-queue system, dispatch `5` and pop it;
the drained state has executed history equal to acceptance history and count
at most one.  Same for a one-queue multi-queue system with task `7`. -/
theorem exactly_once_witness :
    (Relation.ReflTransGen (MQStep Nat) (MQSys.init Nat)
        ⟨⟨[], true⟩, [5], [5]⟩ ∧
      ([5] : List Nat).count 5 ≤ ([5] : List Nat).count 5 ∧
      ([5] : List Nat) = [5]) ∧
    (Relation.ReflTransGen (PollStep Nat) (PollSys.init Nat 1)
        ⟨⟨[[]], true⟩, [(0, 7)], [(0, 7)]⟩ ∧
      (∀ i, ([[]] : List (List Nat)).getD i [] = []) ∧
      atQueue 0 ([(0, 7)] : List (Nat × Nat)) = atQueue 0 [(0, 7)]) := by
  have h1 : MQStep Nat (MQSys.init Nat) ⟨⟨[5], true⟩, [5], []⟩ :=
    MQStep.dispatch_ok _ 5 ⟨[5], true⟩ [] rfl
  have h2 : MQStep Nat ⟨⟨[5], true⟩, [5], []⟩ ⟨⟨[], true⟩, [5], [5]⟩ :=
    MQStep.pop _ 5 ⟨[], true⟩ rfl
  have hmq : Relation.ReflTransGen (MQStep Nat) (MQSys.init Nat)
      ⟨⟨[], true⟩, [5], [5]⟩ :=
    Relation.ReflTransGen.tail (Relation.ReflTransGen.single h1) h2
  have p1 : PollStep Nat (PollSys.init Nat 1) ⟨⟨[[7]], true⟩, [(0, 7)], []⟩ :=
    PollStep.dispatch_ok _ 7 0 ⟨[[7]], true⟩ [CvOp.notify_all] rfl rfl
  have p2 : PollStep Nat ⟨⟨[[7]], true⟩, [(0, 7)], []⟩
      ⟨⟨[[]], true⟩, [(0, 7)], [(0, 7)]⟩ :=
    PollStep.pop _ 0 7 ⟨[[]], true⟩ rfl
  have hpoll : Relation.ReflTransGen (PollStep Nat) (PollSys.init Nat 1)
      ⟨⟨[[]], true⟩, [(0, 7)], [(0, 7)]⟩ :=
    Relation.ReflTransGen.tail (Relation.ReflTransGen.single p1) p2
  have hdrain : ∀ i, ([[]] : List (List Nat)).getD i [] = [] := by
    intro i
    cases i <;> rfl
  exact ⟨⟨hmq, (exactly_once.1 _ hmq).1 5, (exactly_once.1 _ hmq).2 rfl⟩,
    ⟨hpoll, hdrain, (exactly_once.2 1 _ hpoll).2 hdrain 0⟩⟩

lemma getD_eq_of_getElem? {β : Type} {l : List β} {n : Nat} {a : β}
    (h : l[n]? = some a) (d : β) : l.getD n d = a := by
  induction l generalizing n with
  | nil => simp at h
  | cons b l ih =>
    cases n with
    | zero => simp at h; simp [List.getD, h]
    | succ m => exact ih (by simpa using h)

lemma selectLoop_spec {α : Type} (L : List (List α)) :
    ∀ (qs : List (List α)) (best m idx : Nat),
      L.drop idx = qs → best < idx → best < L.length →
      m = (L.getD best []).length →
      (∀ j, j < idx → m ≤ (L.getD j []).length) →
      (∀ j, j < best → m < (L.getD j []).length) →
      Poll.selectLoop best m idx qs < L.length ∧
      (∀ j, j < L.length →
        (L.getD (Poll.selectLoop best m idx qs) []).length ≤
          (L.getD j []).length) ∧
      (∀ j, j < Poll.selectLoop best m idx qs →
        (L.getD (Poll.selectLoop best m idx qs) []).length <
          (L.getD j []).length) := by
  intro qs
  induction qs with
  | nil =>
    intro best m idx hdrop hbi hbL hm hall hstrict
    have hiL : L.length ≤ idx := by
      have h0 : (L.drop idx).length = L.length - idx := List.length_drop idx L
      rw [hdrop] at h0
      simp only [List.length_nil] at h0
      omega
    refine ⟨hbL, ?_, ?_⟩
    · intro j hj
      simp only [Poll.selectLoop]
      rw [← hm]
      exact hall j (lt_of_lt_of_le hj hiL)
    · intro j hj
      simp only [Poll.selectLoop] at hj ⊢
      rw [← hm]
      exact hstrict j hj
  | cons q qs ih =>
    intro best m idx hdrop hbi hbL hm hall hstrict
    have hlen : (L.drop idx).length = L.length - idx := List.length_drop idx L
    rw [hdrop] at hlen
    have hiL : idx < L.length := by simp at hlen; omega
    have hq0 : L[idx]? = some q := by
      have h0 : (L.drop idx)[0]? = some q := by rw [hdrop]; simp
      rwa [List.getElem?_drop, Nat.add_zero] at h0
    have hq : L.getD idx [] = q := getD_eq_of_getElem? hq0 []
    have hdrop' : L.drop (idx + 1) = qs := by
      have : L.drop (idx + 1) = (L.drop idx).drop 1 := by
        rw [List.drop_drop, Nat.add_comm]
      rw [this, hdrop]
      rfl
    simp only [Poll.selectLoop]
    by_cases hlt : q.length < m
    · rw [if_pos hlt]
      refine ih idx q.length (idx + 1) hdrop' (Nat.lt_succ_self idx) hiL
        (by rw [hq]) ?_ ?_
      · intro j hj
        rcases Nat.lt_succ_iff_lt_or_eq.mp hj with hj' | hj'
        · exact Nat.le_of_lt (lt_of_lt_of_le hlt (hall j hj'))
        · subst hj'; rw [hq]
      · intro j hj
        exact lt_of_lt_of_le hlt (hall j hj)
    · rw [if_neg hlt]
      refine ih best m (idx + 1) hdrop' (Nat.lt_succ_of_lt hbi) hbL hm ?_
        hstrict
      intro j hj
      rcases Nat.lt_succ_iff_lt_or_eq.mp hj with hj' | hj'
      · exact hall j hj'
      · subst hj'
        rw [hq]
        exact Nat.le_of_not_lt hlt

lemma selectQueue_spec {α : Type} {L : List (List α)} {i : Nat}
    (h : Poll.selectQueue L = some i) :
    i < L.length ∧
    (∀ j, j < L.length → (L.getD i []).length ≤ (L.getD j []).length) ∧
    (∀ j, j < i → (L.getD i []).length < (L.getD j []).length) := by
  cases L with
  | nil => simp [Poll.selectQueue] at h
  | cons q qs =>
    simp only [Poll.selectQueue, Option.some.injEq] at h
    subst h
    exact selectLoop_spec (q :: qs) qs 0 q.length 1 rfl Nat.zero_lt_one
      (by simp) rfl
      (fun j hj => by
        have hj0 : j = 0 := by omega
        subst hj0
        simp)
      (fun j hj => by omega)

/-- C5: a successful Dispatch of the multi-queue variant selects a queue of
minimum current length among all queues, breaking ties by the lowest index
(every strictly smaller index holds a strictly longer queue), appends the
task to that queue and to no other, and returns success. -/
theorem min_length_selection {α : Type} :
    ∀ (s : Poll α) (t : α), s.runing_ = true → 1 < s.queue_.length →
      ∃ i, Poll.selectQueue s.queue_ = some i ∧
        Poll.Dispatch s t =
          some (true,
            { s with queue_ := s.queue_.set i (s.queue_.getD i [] ++ [t]) },
            [CvOp.notify_all]) ∧
        i < s.queue_.length ∧
        (∀ j, j < s.queue_.length →
          (s.queue_.getD i []).length ≤ (s.queue_.getD j []).length) ∧
        (∀ j, j < i →
          (s.queue_.getD i []).length < (s.queue_.getD j []).length) ∧
        (∀ j, j ≠ i →
          (s.queue_.set i (s.queue_.getD i [] ++ [t])).getD j [] =
            s.queue_.getD j []) := by
  intro s t hr hlen
  have hne : s.queue_ ≠ [] := by
    intro h
    rw [h] at hlen
    simp at hlen
  obtain ⟨i, hi⟩ := selectQueue_isSome hne
  obtain ⟨hlt, hmin, hties⟩ := selectQueue_spec hi
  refine ⟨i, hi, ?_, hlt, hmin, hties, ?_⟩
  · simp only [Poll.Dispatch, hr, hi, if_true]
  · intro j hj
    exact getD_set_of_ne _ _ _ _ _ (fun h => hj h.symm)

/-- Witness for C5 at the two-queue state `[[9], []]` with the running flag
set: the scan selects queue `1` (length 0 beats length 1) and the task `3`
lands there. -/
theorem min_length_selection_witness :
    (⟨[[9], []], true⟩ : Poll Nat).runing_ = true ∧
    1 < (⟨[[9], []], true⟩ : Poll Nat).queue_.length ∧
    (∃ i, Poll.selectQueue (⟨[[9], []], true⟩ : Poll Nat).queue_ = some i ∧
      Poll.Dispatch (⟨[[9], []], true⟩ : Poll Nat) 3 =
        some (true,
          { (⟨[[9], []], true⟩ : Poll Nat) with
              queue_ := (⟨[[9], []], true⟩ : Poll Nat).queue_.set i
                ((⟨[[9], []], true⟩ : Poll Nat).queue_.getD i [] ++ [3]) },
          [CvOp.notify_all]) ∧
      i < (⟨[[9], []], true⟩ : Poll Nat).queue_.length ∧
      (∀ j, j < (⟨[[9], []], true⟩ : Poll Nat).queue_.length →
        ((⟨[[9], []], true⟩ : Poll Nat).queue_.getD i []).length ≤
          ((⟨[[9], []], true⟩ : Poll Nat).queue_.getD j []).length) ∧
      (∀ j, j < i →
        ((⟨[[9], []], true⟩ : Poll Nat).queue_.getD i []).length <
          ((⟨[[9], []], true⟩ : Poll Nat).queue_.getD j []).length) ∧
      (∀ j, j ≠ i →
        ((⟨[[9], []], true⟩ : Poll Nat).queue_.set i
          ((⟨[[9], []], true⟩ : Poll Nat).queue_.getD i [] ++ [3])).getD j [] =
          (⟨[[9], []], true⟩ : Poll Nat).queue_.getD j [])) :=
  ⟨rfl, by decide, min_length_selection ⟨[[9], []], true⟩ 3 rfl (by decide)⟩

lemma dispatchTrace_cons {α : Type} {s s' : Poll α} {t : α} {ts : List α}
    {i : Nat} {ops : List CvOp}
    (hsel : Poll.selectQueue s.queue_ = some i)
    (hd : Poll.Dispatch s t = some (true, s', ops)) :
    Poll.dispatchTrace s (t :: ts) =
      (Poll.dispatchTrace s' ts).map fun r => (i :: r.1, r.2) := by
  simp only [Poll.dispatchTrace]
  rw [hsel, hd]

lemma getD_append_left {β : Type} (l l' : List β) (j : Nat) (d : β)
    (h : j < l.length) : (l ++ l').getD j d = l.getD j d := by
  induction l generalizing j with
  | nil => simp at h
  | cons a l ih =>
    cases j with
    | zero => rfl
    | succ m => exact ih m (by simpa using h)

lemma getD_append_right2 {β : Type} (l l' : List β) (j : Nat) (d : β)
    (h : l.length ≤ j) : (l ++ l').getD j d = l'.getD (j - l.length) d := by
  induction l generalizing j with
  | nil => simp
  | cons a l ih =>
    cases j with
    | zero => simp at h
    | succ m =>
      simp only [List.cons_append, List.getD_cons_succ, List.length_cons,
        Nat.succ_sub_succ]
      exact ih m (by simpa using h)

lemma set_append_len {β : Type} (l l' : List β) (k : Nat) (x : β) :
    (l ++ l').set (l.length + k) x = l ++ l'.set k x := by
  induction l with
  | nil => simp
  | cons a l ih =>
    simp only [List.cons_append, List.length_cons]
    rw [Nat.succ_add]
    simp only [List.set]
    rw [ih]

lemma getD_map_singleton {α : Type} (pre : List α) (j : Nat)
    (h : j < pre.length) :
    ((pre.map fun t => [t]).getD j []).length = 1 := by
  induction pre generalizing j with
  | nil => simp at h
  | cons a pre ih =>
    cases j with
    | zero => rfl
    | succ m => exact ih m (by simpa using h)

lemma selectQueue_one_each {α : Type} (pre : List α) (n : Nat) :
    Poll.selectQueue
        ((pre.map fun t => [t]) ++ List.replicate (n + 1) ([] : List α)) =
      some pre.length := by
  set L := (pre.map fun t => [t]) ++ List.replicate (n + 1) ([] : List α)
    with hL
  have hne : L ≠ [] := by
    rw [hL]
    intro h
    have := congrArg List.length h
    simp at this
  obtain ⟨i, hi⟩ := selectQueue_isSome hne
  obtain ⟨hlt, hmin, hties⟩ := selectQueue_spec hi
  have hlen : L.length = pre.length + (n + 1) := by simp [hL]
  have hone : ∀ j, j < pre.length → (L.getD j []).length = 1 := by
    intro j hj
    rw [hL, getD_append_left _ _ _ _ (by simpa using hj)]
    exact getD_map_singleton pre j hj
  have hzero : ∀ j, pre.length ≤ j → L.getD j [] = [] := by
    intro j hj
    rw [hL, getD_append_right2 _ _ _ _ (by simpa using hj)]
    exact getD_replicate_nil _ _
  have hpre_lt : pre.length < L.length := by omega
  have hi0 : (L.getD i []).length = 0 := by
    have h1 := hmin pre.length hpre_lt
    rw [hzero pre.length (Nat.le_refl _)] at h1
    simpa using h1
  have hge : pre.length ≤ i := by
    by_contra hc
    have := hone i (Nat.lt_of_not_le hc)
    omega
  have hle : i ≤ pre.length := by
    by_contra hc
    have := hties pre.length (Nat.lt_of_not_le hc)
    rw [hzero pre.length (Nat.le_refl _)] at this
    simp at this
  have : i = pre.length := Nat.le_antisymm hle hge
  rw [← this]
  exact hi

lemma dispatchTrace_spread {α : Type} :
    ∀ (ts pre : List α),
      Poll.dispatchTrace
          ⟨(pre.map fun t => [t]) ++ List.replicate ts.length ([] : List α),
            true⟩ ts =
        some ((List.range ts.length).map (fun k => k + pre.length),
          ⟨(pre ++ ts).map fun t => [t], true⟩) := by
  intro ts
  induction ts with
  | nil =>
    intro pre
    simp [Poll.dispatchTrace]
  | cons t ts ih =>
    intro pre
    have hsel := selectQueue_one_each pre ts.length
    have hget : ((pre.map fun t => [t]) ++
        List.replicate (ts.length + 1) ([] : List α)).getD pre.length [] = [] := by
      rw [getD_append_right2 _ _ _ _ (by simp)]
      exact getD_replicate_nil _ _
    have hset : ((pre.map fun t => [t]) ++
          List.replicate (ts.length + 1) ([] : List α)).set pre.length [t] =
        ((pre ++ [t]).map fun u => [u]) ++
          List.replicate ts.length ([] : List α) := by
      have h0 : pre.length = (pre.map fun t => [t]).length + 0 := by simp
      rw [h0, set_append_len]
      simp [List.replicate_succ]
    have hdisp : Poll.Dispatch
        (⟨(pre.map fun t => [t]) ++
          List.replicate (ts.length + 1) ([] : List α), true⟩ : Poll α) t =
        some (true,
          ⟨((pre ++ [t]).map fun u => [u]) ++
            List.replicate ts.length ([] : List α), true⟩,
          [CvOp.notify_all]) := by
      simp only [Poll.Dispatch, if_true, hsel]
      rw [hget, List.nil_append, hset]
    simp only [List.length_cons]
    rw [dispatchTrace_cons hsel hdisp, ih (pre ++ [t])]
    simp only [Option.map_some', Option.some.injEq, Prod.mk.injEq, Poll.mk.injEq,
      List.length_append, List.length_singleton]
    refine ⟨?_, ?_, trivial⟩
    · rw [List.range_succ_eq_map]
      simp only [List.map_cons, List.map_map, Nat.zero_add]
      congr 1
      apply List.map_congr_left
      intro k _
      simp only [Function.comp_apply, Nat.succ_eq_add_one]
      omega
    · rw [List.append_assoc]
      rfl

/-- C6: starting from `K` empty queues with the running flag set and no pops
interleaved, `K` consecutive Dispatch calls all succeed and land on `K`
distinct queues — the selected indices are exactly `0, 1, ..., K-1` (a list
with no duplicates) — leaving exactly one task on each queue. -/
theorem load_spread {α : Type} :
    ∀ (ts : List α),
      Poll.dispatchTrace
          ⟨List.replicate ts.length ([] : List α), true⟩ ts =
        some (List.range ts.length, ⟨ts.map fun t => [t], true⟩) ∧
      (List.range ts.length).Nodup := by
  intro ts
  refine ⟨?_, List.nodup_range _⟩
  have h := dispatchTrace_spread ts []
  simpa using h

end CppUtils
